import Mathlib

/-!
Verification of the GitLab/GitHub repository-reconciliation scripts.

The development shallowly embeds the JavaScript source:
  - the CSV codec (stringifyCsvValue / writeCsv / parseCsv / readCsv),
  - the keyed-collection loaders (loadGithubReport / loadGitlabReport),
  - the archive cross-check comparison (compare),
  - the staleness comparison (compareLastChanges),
  - the bounded enrichment pool (fetchProjectDetailsConcurrently).

Modelling conventions:
  - A JavaScript object with string fields is a `Rec`, an association list
    with property-update semantics (`objSet`) and property access defaulting
    a missing property to the empty string (`objGetD`); the JS distinction
    between an absent property and an empty-string property is collapsed,
    which is sound for every access pattern in these scripts because each
    access either supplies a falsy default or only tests truthiness.
  - JS string operations are modelled on `List Char`: `.trim()` as `jsTrim`
    (the whitespace characters that actually occur in the data),
    `.toLowerCase()` as `jsToLower` (per-character lowering), `.join(sep)`
    as `joinSep`, and the comparison used by `Array.prototype.sort()` on
    strings as the lexicographic `strLe`.
  - `new Date(v).getTime()` is abstracted as a caller-supplied parameter
    `parse : String → Option Int` (some = a valid millisecond timestamp,
    none = NaN); the falsy-input short-circuit of `toDate` is kept concrete.
  - File-system reads/writes are dropped: `writeCsvText` returns the text
    that `writeCsv` writes, `readCsvRecords` consumes the text that
    `readCsv` reads.  `console.error` warnings are modelled as returned
    lists of messages.
-/

/-- A JavaScript object with string-valued properties, in insertion order. -/
abbrev Rec := List (String × String)

/-- JS property read with an empty-string default: models `record[k]`
where an absent property and `""` behave identically downstream. -/
def objGetD : Rec → String → String
  | [], _ => ""
  | (k', v) :: rest, k => if k' = k then v else objGetD rest k

/-- JS property assignment `record[k] = v`: overwrite in place if the key
exists, otherwise append (insertion order preserved). -/
def objSet : Rec → String → String → Rec
  | [], k, v => [(k, v)]
  | (k', v') :: rest, k, v => if k' = k then (k, v) :: rest else (k', v') :: objSet rest k v

/-- JS `a || b` on strings: the empty string is the only falsy string. -/
def jsOr (a b : String) : String := if a = "" then b else a

/-- JS whitespace test for the characters occurring in this data
(space, tab, carriage return, line feed). -/
def jsTrim (s : String) : String :=
  ⟨((s.data.dropWhile Char.isWhitespace).reverse.dropWhile Char.isWhitespace).reverse⟩

/-- Models `String.prototype.toLowerCase` by per-character lowering. -/
def jsToLower (s : String) : String := ⟨s.data.map Char.toLower⟩

/-- Models `Array.prototype.join(sep)` at the character level. -/
def joinSep (sep : Char) : List String → List Char
  | [] => []
  | [s] => s.data
  | s :: rest => s.data ++ sep :: joinSep sep rest

/-- The test `/[",\n\r]/.test(stringValue)` of `stringifyCsvValue`. -/
def needsQuoting (s : String) : Bool :=
  s.data.any fun c => c = '"' || c = ',' || c = '\n' || c = '\r'

/-- `stringValue.replace(/"/g, oq2)`: every double quote is doubled. -/
def escQuotes : List Char → List Char
  | [] => []
  | c :: rest => (if c = '"' then ['"', '"'] else [c]) ++ escQuotes rest

/-- `stringifyCsvValue` on a string value: wrap in double quotes (doubling
interior quotes) exactly when the value contains a quote, comma, LF or CR. -/
def stringifyCsvValue (value : String) : String :=
  if needsQuoting value then ⟨'"' :: (escQuotes value.data ++ ['"'])⟩ else value

/-- The text `writeCsv` writes: header names joined by commas (unescaped,
as in the source), one line per record with values selected by header and
escaped by `stringifyCsvValue`, lines joined by LF with a trailing LF. -/
def writeCsvText (headers : List String) (records : List Rec) : String :=
  let rows : List String :=
    ⟨joinSep ',' headers⟩ ::
      records.map (fun record =>
        ⟨joinSep ',' (headers.map fun header => stringifyCsvValue (objGetD record header))⟩)
  ⟨joinSep '\n' rows ++ ['\n']⟩

/-- The character scanner of `parseCsv`: two-mode (quoted/unquoted) loop over
the input with the accumulated cell, current row and completed rows.
Arm order mirrors the source branch order exactly. -/
def parseCsvGo : Bool → List Char → List Char → List String → List (List String) → List (List String)
  | _, [], cell, row, rows =>
      if cell.length > 0 || row.length > 0 then rows ++ [row ++ [⟨cell⟩]] else rows
  | true, '"' :: '"' :: rest, cell, row, rows => parseCsvGo true rest (cell ++ ['"']) row rows
  | true, '"' :: rest, cell, row, rows => parseCsvGo false rest cell row rows
  | true, c :: rest, cell, row, rows => parseCsvGo true rest (cell ++ [c]) row rows
  | false, '"' :: rest, cell, row, rows => parseCsvGo true rest cell row rows
  | false, ',' :: rest, cell, row, rows => parseCsvGo false rest [] (row ++ [⟨cell⟩]) rows
  | false, '\r' :: '\n' :: rest, cell, row, rows =>
      parseCsvGo false rest [] [] (rows ++ [row ++ [⟨cell⟩]])
  | false, '\r' :: rest, cell, row, rows =>
      parseCsvGo false rest [] [] (rows ++ [row ++ [⟨cell⟩]])
  | false, '\n' :: rest, cell, row, rows =>
      parseCsvGo false rest [] [] (rows ++ [row ++ [⟨cell⟩]])
  | false, c :: rest, cell, row, rows => parseCsvGo false rest (cell ++ [c]) row rows

/-- The final fix-up of `parseCsv`: a trailing row that is a single empty
cell is removed. -/
def dropTrailingEmptyRow (rows : List (List String)) : List (List String) :=
  match rows.getLast? with
  | some last => if last = [""] then rows.dropLast else rows
  | none => rows

/-- `parseCsv(content)`. -/
def parseCsv (content : String) : List (List String) :=
  dropTrailingEmptyRow (parseCsvGo false content.data [] [] [])

/-- The `headers.forEach((header, index) => record[header] = cells[index] ?? "")`
record builder of `readCsv`, consuming cells positionally. -/
def buildRecord : List String → List String → Rec → Rec
  | [], _, record => record
  | header :: hs, cells, record =>
      buildRecord hs cells.tail (objSet record header (cells.headD ""))

/-- The records `readCsv` returns for a given file content: first parsed row
is the header, each later row is zipped against it positionally. -/
def readCsvRecords (content : String) : List Rec :=
  match parseCsv content with
  | [] => []
  | headers :: body => body.map fun cells => buildRecord headers cells []

example : parseCsv "a,b\nx,\"y,z\"\n" = [["a", "b"], ["x", "y,z"]] := by decide
example : readCsvRecords "a,b\nx,\"y,z\"\n" = [[("a", "x"), ("b", "y,z")]] := by decide
example : writeCsvText ["a", "b"] [[("a", "x"), ("b", "y,z")]] = "a,b\nx,\"y,z\"\n" := by decide

example : parseCsv "\"a,b\n\"\"c\"\"\"" = [["a,b\n\"c\""]] := by decide

section ParseLemmas

theorem parseCsvGo_nil (q : Bool) (cell : List Char) (row : List String)
    (rows : List (List String)) :
    parseCsvGo q [] cell row rows =
      if cell.length > 0 || row.length > 0 then rows ++ [row ++ [⟨cell⟩]] else rows := by
  cases q <;> rfl

theorem parseCsvGo_quoted_esc (rest : List Char) (cell : List Char) (row : List String)
    (rows : List (List String)) :
    parseCsvGo true ('"' :: '"' :: rest) cell row rows =
      parseCsvGo true rest (cell ++ ['"']) row rows := rfl

theorem parseCsvGo_quoted_close (rest : List Char) (cell : List Char) (row : List String)
    (rows : List (List String)) (h : rest.head? ≠ some '"') :
    parseCsvGo true ('"' :: rest) cell row rows = parseCsvGo false rest cell row rows := by
  apply parseCsvGo.eq_3
  intro rest1 hr
  exact h (by simp [hr])

theorem parseCsvGo_quoted_char (c : Char) (rest : List Char) (cell : List Char)
    (row : List String) (rows : List (List String)) (hc : c ≠ '"') :
    parseCsvGo true (c :: rest) cell row rows = parseCsvGo true rest (cell ++ [c]) row rows := by
  apply parseCsvGo.eq_4
  · intro _ h1 _; exact hc h1
  · intro h1; exact hc h1

theorem parseCsvGo_open_quote (rest : List Char) (cell : List Char) (row : List String)
    (rows : List (List String)) :
    parseCsvGo false ('"' :: rest) cell row rows = parseCsvGo true rest cell row rows := rfl

theorem parseCsvGo_comma (rest : List Char) (cell : List Char) (row : List String)
    (rows : List (List String)) :
    parseCsvGo false (',' :: rest) cell row rows =
      parseCsvGo false rest [] (row ++ [⟨cell⟩]) rows := rfl

theorem parseCsvGo_lf (rest : List Char) (cell : List Char) (row : List String)
    (rows : List (List String)) :
    parseCsvGo false ('\n' :: rest) cell row rows =
      parseCsvGo false rest [] [] (rows ++ [row ++ [⟨cell⟩]]) := rfl

theorem parseCsvGo_unquoted_char (c : Char) (rest : List Char) (cell : List Char)
    (row : List String) (rows : List (List String))
    (h1 : c ≠ '"') (h2 : c ≠ ',') (h3 : c ≠ '\r') (h4 : c ≠ '\n') :
    parseCsvGo false (c :: rest) cell row rows =
      parseCsvGo false rest (cell ++ [c]) row rows := by
  apply parseCsvGo.eq_10
  · intro h; exact h1 h
  · intro h; exact h2 h
  · intro _ h _; exact h3 h
  · intro h; exact h3 h
  · intro h; exact h4 h

theorem parseCsvGo_escQuotes (s rest cell : List Char) (row : List String)
    (rows : List (List String)) (h : rest.head? ≠ some '"') :
    parseCsvGo true (escQuotes s ++ '"' :: rest) cell row rows =
      parseCsvGo false rest (cell ++ s) row rows := by
  induction s generalizing cell with
  | nil =>
    rw [show escQuotes [] = [] from rfl, List.nil_append, List.append_nil]
    exact parseCsvGo_quoted_close rest cell row rows h
  | cons c t ih =>
    by_cases hc : c = '"'
    · subst hc
      rw [show escQuotes ('"' :: t) = '"' :: '"' :: escQuotes t from by simp [escQuotes]]
      rw [List.cons_append, List.cons_append, parseCsvGo_quoted_esc, ih]
      simp
    · rw [show escQuotes (c :: t) = c :: escQuotes t from by simp [escQuotes, hc]]
      rw [List.cons_append, parseCsvGo_quoted_char c _ _ _ _ hc, ih]
      simp

theorem parseCsvGo_safe_run (s rest cell : List Char) (row : List String)
    (rows : List (List String))
    (hs : ∀ c ∈ s, c ≠ '"' ∧ c ≠ ',' ∧ c ≠ '\n' ∧ c ≠ '\r') :
    parseCsvGo false (s ++ rest) cell row rows = parseCsvGo false rest (cell ++ s) row rows := by
  induction s generalizing cell with
  | nil => simp
  | cons c t ih =>
    obtain ⟨h1, h2, h3, h4⟩ := hs c (by simp)
    rw [List.cons_append, parseCsvGo_unquoted_char c _ _ _ _ h1 h2 h4 h3]
    rw [ih _ (fun x hx => hs x (by simp [hx]))]
    simp

theorem needsQuoting_eq_false (v : String) (h : needsQuoting v = false) :
    ∀ c ∈ v.data, c ≠ '"' ∧ c ≠ ',' ∧ c ≠ '\n' ∧ c ≠ '\r' := by
  intro c hc
  simp only [needsQuoting, List.any_eq_false] at h
  have h2 := h c hc
  simp only [Bool.or_eq_true, decide_eq_true_eq, not_or] at h2
  exact ⟨h2.1.1.1, h2.1.1.2, h2.1.2, h2.2⟩

theorem stringifyCsvValue_safe (v : String) (h : needsQuoting v = false) :
    stringifyCsvValue v = v := by
  simp [stringifyCsvValue, h]

theorem parseCsvGo_value (v : String) (rest : List Char) (row : List String)
    (rows : List (List String))
    (h : rest.head? = some ',' ∨ rest.head? = some '\n') :
    parseCsvGo false ((stringifyCsvValue v).data ++ rest) [] row rows =
      parseCsvGo false rest v.data row rows := by
  have hh : rest.head? ≠ some '"' := by
    rcases h with h | h <;> simp [h]
  by_cases hq : needsQuoting v
  · rw [show (stringifyCsvValue v).data = '"' :: (escQuotes v.data ++ ['"']) from by
      simp [stringifyCsvValue, hq]]
    rw [List.cons_append, parseCsvGo_open_quote]
    rw [show (escQuotes v.data ++ ['"']) ++ rest = escQuotes v.data ++ '"' :: rest from by simp]
    rw [parseCsvGo_escQuotes _ _ _ _ _ hh]
    simp
  · rw [stringifyCsvValue_safe v (by simpa using hq)]
    rw [parseCsvGo_safe_run _ _ _ _ _ (needsQuoting_eq_false v (by simpa using hq))]
    simp

/-- The characters of one encoded CSV line for a list of cell values. -/
def lineOf (vals : List String) : List Char := joinSep ',' (vals.map stringifyCsvValue)

theorem parseCsvGo_line (vals : List String) (rest : List Char) (row : List String)
    (rows : List (List String)) (hv : vals ≠ []) :
    parseCsvGo false (lineOf vals ++ '\n' :: rest) [] row rows =
      parseCsvGo false rest [] [] (rows ++ [row ++ vals]) := by
  induction vals generalizing row with
  | nil => exact absurd rfl hv
  | cons v vs ih =>
    cases vs with
    | nil =>
      rw [show lineOf [v] = (stringifyCsvValue v).data from rfl]
      rw [parseCsvGo_value v ('\n' :: rest) row rows (Or.inr rfl)]
      rw [parseCsvGo_lf]
    | cons v2 t =>
      rw [show lineOf (v :: v2 :: t) = (stringifyCsvValue v).data ++ ',' :: lineOf (v2 :: t) from rfl]
      rw [List.append_assoc, List.cons_append]
      rw [parseCsvGo_value v (',' :: (lineOf (v2 :: t) ++ '\n' :: rest)) row rows (Or.inl rfl)]
      rw [parseCsvGo_comma]
      rw [ih _ (by simp)]
      simp

theorem parseCsvGo_lines (vss : List (List String)) (acc : List (List String))
    (h0 : vss ≠ []) (hne : ∀ vs ∈ vss, vs ≠ []) :
    parseCsvGo false (joinSep '\n' (vss.map fun vs => (⟨lineOf vs⟩ : String)) ++ ['\n'])
        [] [] acc = acc ++ vss := by
  induction vss generalizing acc with
  | nil => exact absurd rfl h0
  | cons vs t ih =>
    cases t with
    | nil =>
      simp only [List.map_cons, List.map_nil]
      rw [show joinSep '\n' [(⟨lineOf vs⟩ : String)] = lineOf vs from rfl]
      rw [show lineOf vs ++ ['\n'] = lineOf vs ++ '\n' :: [] from rfl]
      rw [parseCsvGo_line vs [] [] acc (hne vs (by simp))]
      rw [parseCsvGo_nil]
      simp
    | cons vs2 t2 =>
      simp only [List.map_cons]
      rw [show joinSep '\n' ((⟨lineOf vs⟩ : String) :: (⟨lineOf vs2⟩ : String) ::
            t2.map fun x => (⟨lineOf x⟩ : String)) =
            lineOf vs ++ '\n' :: joinSep '\n' ((⟨lineOf vs2⟩ : String) ::
              t2.map fun x => (⟨lineOf x⟩ : String)) from rfl]
      rw [List.append_assoc, List.cons_append]
      rw [parseCsvGo_line vs _ [] acc (hne vs (by simp))]
      have ih2 := ih (acc ++ [[] ++ vs]) (by simp) (fun x hx => hne x (List.mem_cons_of_mem _ hx))
      simp only [List.map_cons] at ih2
      rw [ih2]
      simp

theorem parseCsvGo_writeCsv (headers : List String) (records : List Rec)
    (hsafe : ∀ h ∈ headers, needsQuoting h = false) (hhead : headers ≠ []) :
    parseCsvGo false (writeCsvText headers records).data [] [] [] =
      headers :: records.map (fun record => headers.map fun h => objGetD record h) := by
  have hmap : headers.map stringifyCsvValue = headers := by
    rw [show headers.map stringifyCsvValue = headers.map id from
      List.map_congr_left (fun h hh => stringifyCsvValue_safe h (hsafe h hh)), List.map_id]
  have htext : (writeCsvText headers records).data =
      joinSep '\n' ((headers :: records.map fun record => headers.map (objGetD record)).map
        fun vs => (⟨lineOf vs⟩ : String)) ++ ['\n'] := by
    show joinSep '\n' ((⟨joinSep ',' headers⟩ : String) :: records.map fun record =>
        (⟨joinSep ',' (headers.map fun header => stringifyCsvValue (objGetD record header))⟩ :
          String)) ++ ['\n'] = _
    simp only [List.map_cons, List.map_map]
    congr 3
    · rw [lineOf, hmap]
    · apply List.map_congr_left
      intro record _
      show (⟨joinSep ',' (headers.map fun header => stringifyCsvValue (objGetD record header))⟩ :
        String) = ⟨lineOf (headers.map (objGetD record))⟩
      rw [lineOf, List.map_map]
      rfl
  rw [htext, parseCsvGo_lines _ [] (by simp) ?hne]
  · simp
  case hne =>
    intro vs hvs
    rcases List.mem_cons.mp hvs with rfl | hmem
    · exact hhead
    · obtain ⟨record, _, rfl⟩ := List.mem_map.mp hmem
      simp [List.map_eq_nil_iff, hhead]

theorem parseCsv_writeCsv (headers : List String) (records : List Rec)
    (hsafe : ∀ h ∈ headers, needsQuoting h = false) (hrecs : records ≠ [])
    (hhead : headers ≠ [])
    (hlast : ∀ r h, records.getLast? = some r → headers = [h] → objGetD r h ≠ "") :
    parseCsv (writeCsvText headers records) =
      headers :: records.map (fun record => headers.map fun h => objGetD record h) := by
  unfold parseCsv
  rw [parseCsvGo_writeCsv headers records hsafe hhead]
  obtain ⟨r0, hr0⟩ : ∃ r0, records.getLast? = some r0 := by
    cases h : records.getLast? with
    | none => exact absurd (List.getLast?_eq_none_iff.mp h) hrecs
    | some r0 => exact ⟨r0, rfl⟩
  have hbody : (records.map fun record => headers.map fun h => objGetD record h).getLast? =
      some (headers.map fun h => objGetD r0 h) := by
    rw [List.getLast?_map, hr0]
    rfl
  have hlastrow : (headers.map fun h => objGetD r0 h) ≠ [""] := by
    intro hcontra
    obtain ⟨h0, rfl⟩ : ∃ h0, headers = [h0] := by
      cases headers with
      | nil => simp at hcontra
      | cons a t =>
        cases t with
        | nil => exact ⟨a, rfl⟩
        | cons b t2 => simp at hcontra
    have hv : objGetD r0 h0 = "" := by simpa using hcontra
    exact hlast r0 h0 hr0 rfl hv
  unfold dropTrailingEmptyRow
  have hlast2 : ((headers :: records.map fun record => headers.map fun h =>
      objGetD record h)).getLast? = some (headers.map fun h => objGetD r0 h) := by
    rw [List.getLast?_cons, hbody]
    rfl
  rw [hlast2]
  simp [hlastrow]

theorem objGetD_objSet_self (m : Rec) (k v : String) : objGetD (objSet m k v) k = v := by
  induction m with
  | nil => simp [objSet, objGetD]
  | cons kv rest ih =>
    obtain ⟨a, b⟩ := kv
    by_cases h : a = k <;> simp [objSet, objGetD, h, ih]

theorem objGetD_objSet_ne (m : Rec) (k k' v : String) (h : k ≠ k') :
    objGetD (objSet m k v) k' = objGetD m k' := by
  induction m with
  | nil => simp [objSet, objGetD, h]
  | cons kv rest ih =>
    obtain ⟨a, b⟩ := kv
    by_cases ha : a = k
    · subst ha
      simp [objSet, objGetD, h]
    · simp [objSet, objGetD, ha, ih]

theorem objGetD_buildRecord (headers : List String) (f : String → String) (init : Rec)
    (k : String) (hk : k ∈ headers ∨ objGetD init k = f k) :
    objGetD (buildRecord headers (headers.map f) init) k = f k := by
  induction headers generalizing init with
  | nil =>
    rcases hk with h | h
    · cases h
    · exact h
  | cons h hs ih =>
    simp only [List.map_cons, buildRecord, List.tail_cons, List.headD_cons]
    apply ih
    rcases hk with hm | hinit
    · rcases List.mem_cons.mp hm with rfl | hmem
      · by_cases hin : k ∈ hs
        · exact Or.inl hin
        · exact Or.inr (objGetD_objSet_self init k (f k))
      · exact Or.inl hmem
    · by_cases he : h = k
      · subst he
        exact Or.inr (objGetD_objSet_self init h (f h))
      · refine Or.inr ?_
        rw [objGetD_objSet_ne init h k (f h) he]
        exact hinit

theorem readCsv_writeCsv_nil (headers : List String)
    (hsafe : ∀ h ∈ headers, needsQuoting h = false) :
    readCsvRecords (writeCsvText headers []) = [] := by
  cases hh : headers with
  | nil => decide
  | cons a t =>
    rw [readCsvRecords]
    unfold parseCsv
    rw [← hh, parseCsvGo_writeCsv headers [] hsafe (by simp [hh])]
    simp only [List.map_nil]
    unfold dropTrailingEmptyRow
    simp only [List.getLast?_cons, List.getLast?_nil]
    by_cases hb : headers = [""] <;> simp [hb]

theorem readCsv_writeCsv (headers : List String) (records : List Rec)
    (hsafe : ∀ h ∈ headers, needsQuoting h = false) (hrecs : records ≠ [])
    (hhead : headers ≠ [])
    (hlast : ∀ r h, records.getLast? = some r → headers = [h] → objGetD r h ≠ "") :
    readCsvRecords (writeCsvText headers records) =
      records.map fun record => buildRecord headers (headers.map (objGetD record)) [] := by
  rw [readCsvRecords]
  rw [parseCsv_writeCsv headers records hsafe hrecs hhead hlast]
  show (records.map fun record => headers.map fun h => objGetD record h).map
      (fun cells => buildRecord headers cells []) = _
  rw [List.map_map]
  rfl

end ParseLemmas

/-- Claim C1, counterexample: for headers = [a] and the single record whose
only field value is empty, encoding then decoding yields zero records (the
trailing-row fix-up of parseCsv eats the data row), so the decoded table is
not field-by-field equal to the original one-record table. -/
theorem C1_roundtrip_counterexample :
    readCsvRecords (writeCsvText ["a"] [[("a", "")]]) = [] ∧
    ¬ List.Forall₂ (fun record decoded => ∀ h ∈ ["a"], objGetD decoded h = objGetD record h)
        [[("a", "")]] (readCsvRecords (writeCsvText ["a"] [[("a", "")]])) := by
  refine ⟨by decide, ?_⟩
  intro hcontra
  rw [show readCsvRecords (writeCsvText ["a"] [[("a", "")]]) = [] from by decide] at hcontra
  cases hcontra

/-- Claim C1, amended: decode-encode round-trip holds field-by-field (per
header name, with the same number of records) provided (i) no header name
contains a quote, comma, CR or LF (writeCsv never escapes the header row),
(ii) the header list is nonempty when there are records, and (iii) the
table is not a single-column table whose final record has an empty value
(that row is eaten by the trailing-empty-row fix-up of parseCsv). -/
theorem C1_roundtrip_amended (headers : List String) (records : List Rec)
    (hsafe : ∀ h ∈ headers, needsQuoting h = false)
    (hhead : records ≠ [] → headers ≠ [])
    (hlast : ∀ r h, records.getLast? = some r → headers = [h] → objGetD r h ≠ "") :
    (readCsvRecords (writeCsvText headers records)).length = records.length ∧
    List.Forall₂ (fun record decoded => ∀ h ∈ headers, objGetD decoded h = objGetD record h)
      records (readCsvRecords (writeCsvText headers records)) := by
  rcases eq_or_ne records [] with rfl | hne
  · rw [readCsv_writeCsv_nil headers hsafe]
    exact ⟨rfl, List.Forall₂.nil⟩
  · rw [readCsv_writeCsv headers records hsafe hne (hhead hne) hlast]
    constructor
    · simp
    · rw [List.forall₂_map_right_iff, List.forall₂_same]
      intro r _ h hh
      exact objGetD_buildRecord headers (objGetD r) [] h (Or.inl hh)

/-- Witness for C1_roundtrip_amended at a concrete two-record table whose
values contain a comma, a quote and an embedded newline. -/
theorem C1_roundtrip_amended_witness :
    (∀ h ∈ ["name", "desc"], needsQuoting h = false) ∧
    (readCsvRecords (writeCsvText ["name", "desc"]
        [[("name", "a,b"), ("desc", "x\"y\nz")], [("name", "n2"), ("desc", "")]])).length = 2 ∧
    List.Forall₂ (fun record decoded => ∀ h ∈ ["name", "desc"],
        objGetD decoded h = objGetD record h)
      [[("name", "a,b"), ("desc", "x\"y\nz")], [("name", "n2"), ("desc", "")]]
      (readCsvRecords (writeCsvText ["name", "desc"]
        [[("name", "a,b"), ("desc", "x\"y\nz")], [("name", "n2"), ("desc", "")]])) := by
  have main := C1_roundtrip_amended ["name", "desc"]
    [[("name", "a,b"), ("desc", "x\"y\nz")], [("name", "n2"), ("desc", "")]]
    (by decide) (fun _ => by decide) (by intro r h _ hh; simp at hh)
  exact ⟨by decide, main.1, main.2⟩

/-- Claim C2, counterexample: the quoted cell (quote a comma b LF quote
quote c quote quote quote) decodes to the single cell a,b LF quote c quote,
not to the claimed a,b LF c quote: the escaped-quote pair before c
contributes a literal quote before c, not after the whole cell. -/
theorem C2_cell_counterexample :
    parseCsv "\"a,b\n\"\"c\"\"\"" = [["a,b\n\"c\""]] ∧
    ("a,b\n\"c\"" : String) ≠ "a,b\nc\"" := ⟨by decide, by decide⟩

/-- Claim C2, amended: the quoted CSV cell (quote a comma b LF quote quote
c quote quote quote) decodes to exactly one row with exactly one cell whose
content is a,b then a newline then quote c quote. -/
theorem C2_cell_amended : parseCsv "\"a,b\n\"\"c\"\"\"" = [["a,b\n\"c\""]] := by decide

/-- Claim C10: the decoder drops the final parsed row exactly when it is a
single empty cell, whether it came from a terminating line break or from a
genuinely empty record.  Consequently a single-column table whose last
value is empty loses exactly one record through an encode-decode cycle,
while a final multi-column all-empty row survives; the three concrete
parses exhibit the trailing-line-break drop, the genuinely-empty-record
drop, and the preserved multi-column empty row. -/
theorem C10_trailing_row_drop (h0 : String) (records : List Rec)
    (hsafe : needsQuoting h0 = false) (hrecs : records ≠ [])
    (hlast : ∀ r, records.getLast? = some r → objGetD r h0 = "") :
    (readCsvRecords (writeCsvText [h0] records)).length + 1 = records.length ∧
    parseCsv "a\n" = [["a"]] ∧
    parseCsv "a\n\n" = [["a"]] ∧
    parseCsv ",\n" = [["", ""]] ∧
    readCsvRecords (writeCsvText ["a", "b"] [[("a", ""), ("b", "")]]) =
      [[("a", ""), ("b", "")]] := by
  refine ⟨?_, by decide, by decide, by decide, by decide⟩
  obtain ⟨r0, hr0⟩ : ∃ r0, records.getLast? = some r0 := by
    cases h : records.getLast? with
    | none => exact absurd (List.getLast?_eq_none_iff.mp h) hrecs
    | some r0 => exact ⟨r0, rfl⟩
  rw [readCsvRecords]
  unfold parseCsv
  rw [parseCsvGo_writeCsv [h0] records (by simpa using hsafe) (by simp)]
  have hbody : (records.map fun record => [h0].map fun h => objGetD record h).getLast? =
      some [objGetD r0 h0] := by
    rw [List.getLast?_map, hr0]
    rfl
  unfold dropTrailingEmptyRow
  have hfull : (([h0] : List String) ::
      (records.map fun record => [h0].map fun h => objGetD record h)).getLast? =
      some [objGetD r0 h0] := by
    rw [List.getLast?_cons, hbody]
    rfl
  rw [hfull, hlast r0 hr0]
  simp only [if_pos rfl]
  obtain ⟨b0, bt, hb⟩ : ∃ b0 bt,
      (records.map fun record => [h0].map fun h => objGetD record h) = b0 :: bt := by
    cases hm : records.map fun record => [h0].map fun h => objGetD record h with
    | nil =>
      rw [List.map_eq_nil_iff] at hm
      exact absurd hm hrecs
    | cons b0 bt => exact ⟨b0, bt, rfl⟩
  rw [hb, show ([h0] :: b0 :: bt).dropLast = [h0] :: (b0 :: bt).dropLast from
    List.dropLast_cons₂]
  show ((b0 :: bt).dropLast.map fun cells => buildRecord [h0] cells []).length + 1 = _
  have hlen : records.length = (b0 :: bt).length := by
    rw [← hb, List.length_map]
  rw [List.length_map, List.length_dropLast, hlen]
  simp

/-- Witness for C10_trailing_row_drop: a two-record single-column table whose
last value is empty decodes to exactly one record. -/
theorem C10_trailing_row_drop_witness :
    needsQuoting "a" = false ∧
    ([[("a", "x")], [("a", "")]] : List Rec) ≠ [] ∧
    (readCsvRecords (writeCsvText ["a"] [[("a", "x")], [("a", "")]])).length + 1 = 2 := by
  have main := C10_trailing_row_drop "a" [[("a", "x")], [("a", "")]] (by decide) (by decide)
    (by
      intro r hr
      rw [show ([[("a", "x")], [("a", "")]] : List Rec).getLast? = some [("a", "")] from by
        decide] at hr
      cases hr
      decide)
  exact ⟨by decide, by decide, main.1⟩

section Loader

/-- Association-list lookup modelling reading a property of a JS object used
as a string-keyed map. -/
def objLookup {α : Type} : List (String × α) → String → Option α
  | [], _ => none
  | (k', v) :: rest, k => if k' = k then some v else objLookup rest k

/-- The duplicate bookkeeping of the loaders: create the per-key list on
first duplicate, append afterwards. -/
def dupPush : List (String × List Rec) → String → Rec → List (String × List Rec)
  | [], k, r => [(k, [r])]
  | (k', l) :: rest, k, r =>
      if k' = k then (k', l ++ [r]) :: rest else (k', l) :: dupPush rest k r

/-- The key a loader derives from a record: none when the name is empty
after trimming, otherwise the trimmed-and-lowercased name. -/
def normKey (record : Rec) : Option String :=
  let name := jsTrim (objGetD record "name")
  if name = "" then none else some (jsToLower name)

/-- The shared loop body of loadGithubReport and loadGitlabReport: skip
records with blank names, key by trimmed-lowercased name, first record wins,
later records with the same key go to the duplicates map. -/
def loadReportGo : List Rec → List (String × Rec) → List (String × List Rec) →
    List (String × Rec) × List (String × List Rec)
  | [], repos, duplicates => (repos, duplicates)
  | record :: rest, repos, duplicates =>
      let name := jsTrim (objGetD record "name")
      if name = "" then loadReportGo rest repos duplicates
      else
        let key := jsToLower name
        if (objLookup repos key).isSome then
          loadReportGo rest repos (dupPush duplicates key record)
        else
          loadReportGo rest (repos ++ [(key, record)]) duplicates

/-- loadGithubReport and loadGitlabReport, which differ only in the warning
text printed for the duplicate count: the primary mapping plus the
duplicates side map. -/
def loadReport (records : List Rec) : List (String × Rec) × List (String × List Rec) :=
  loadReportGo records [] []

/-- The records of a decoded table that normalize to a given key, in file
order. -/
def matchingRecords (records : List Rec) (k : String) : List Rec :=
  records.filter fun record => normKey record = some k

theorem objLookup_append {α : Type} (l1 l2 : List (String × α)) (k : String) :
    objLookup (l1 ++ l2) k = (objLookup l1 k).or (objLookup l2 k) := by
  induction l1 with
  | nil => simp [objLookup]
  | cons kv rest ih =>
    obtain ⟨k', v⟩ := kv
    by_cases h : k' = k <;> simp [objLookup, h, ih]

theorem objLookup_isSome_iff_mem {α : Type} (m : List (String × α)) (k : String) :
    (objLookup m k).isSome ↔ k ∈ m.map Prod.fst := by
  induction m with
  | nil => simp [objLookup]
  | cons kv rest ih =>
    obtain ⟨k', v⟩ := kv
    by_cases h : k' = k
    · subst h
      simp [objLookup]
    · simp only [objLookup, if_neg h, List.map_cons, List.mem_cons]
      rw [ih]
      constructor
      · exact Or.inr
      · rintro (rfl | hm)
        · exact absurd rfl h
        · exact hm

theorem objLookup_dupPush (d : List (String × List Rec)) (k k' : String) (r : Rec) :
    objLookup (dupPush d k r) k' =
      if k = k' then some ((objLookup d k).getD [] ++ [r]) else objLookup d k' := by
  induction d with
  | nil =>
    by_cases h : k = k' <;> simp [dupPush, objLookup, h]
  | cons kv rest ih =>
    obtain ⟨a, l⟩ := kv
    by_cases ha : a = k
    · subst ha
      by_cases h : a = k' <;> simp [dupPush, objLookup, h, ih]
    · by_cases h : a = k'
      · subst h
        simp [dupPush, objLookup, ha, ih, Ne.symm ha]
      · simp [dupPush, objLookup, ha, h, ih]

theorem matchingRecords_nil (k : String) : matchingRecords [] k = [] := rfl

theorem matchingRecords_cons (record : Rec) (rest : List Rec) (k : String) :
    matchingRecords (record :: rest) k =
      if normKey record = some k then record :: matchingRecords rest k
      else matchingRecords rest k := by
  by_cases hnk : normKey record = some k <;> simp [matchingRecords, hnk]

theorem loadReportGo_cons_skip (record : Rec) (rest : List Rec) (repos duplicates)
    (hnm : jsTrim (objGetD record "name") = "") :
    loadReportGo (record :: rest) repos duplicates = loadReportGo rest repos duplicates := by
  simp [loadReportGo, hnm]

theorem loadReportGo_cons_dup (record : Rec) (rest : List Rec) (repos duplicates)
    (hnm : jsTrim (objGetD record "name") ≠ "")
    (hs : (objLookup repos (jsToLower (jsTrim (objGetD record "name")))).isSome) :
    loadReportGo (record :: rest) repos duplicates =
      loadReportGo rest repos
        (dupPush duplicates (jsToLower (jsTrim (objGetD record "name"))) record) := by
  simp [loadReportGo, hnm, hs]

theorem loadReportGo_cons_new (record : Rec) (rest : List Rec) (repos duplicates)
    (hnm : jsTrim (objGetD record "name") ≠ "")
    (hs : ¬ (objLookup repos (jsToLower (jsTrim (objGetD record "name")))).isSome) :
    loadReportGo (record :: rest) repos duplicates =
      loadReportGo rest
        (repos ++ [(jsToLower (jsTrim (objGetD record "name")), record)]) duplicates := by
  simp only [loadReportGo, if_neg hnm]
  rw [if_neg hs]

theorem loadReportGo_lookup (records : List Rec) (repos : List (String × Rec))
    (duplicates : List (String × List Rec)) (k : String) :
    objLookup (loadReportGo records repos duplicates).1 k =
      (objLookup repos k).or (matchingRecords records k).head? := by
  induction records generalizing repos duplicates with
  | nil => simp [loadReportGo, matchingRecords]
  | cons record rest ih =>
    by_cases hnm : jsTrim (objGetD record "name") = ""
    · have hnk : normKey record ≠ some k := by simp [normKey, hnm]
      rw [loadReportGo_cons_skip record rest repos duplicates hnm, ih, matchingRecords_cons]
      simp [hnk]
    · have hnk : normKey record = some (jsToLower (jsTrim (objGetD record "name"))) := by
        simp [normKey, hnm]
      by_cases hs : (objLookup repos (jsToLower (jsTrim (objGetD record "name")))).isSome
      · rw [loadReportGo_cons_dup record rest repos duplicates hnm hs, ih, matchingRecords_cons]
        by_cases hk : jsToLower (jsTrim (objGetD record "name")) = k
        · obtain ⟨v, hv⟩ := Option.isSome_iff_exists.mp hs
          rw [hk] at hv
          simp [hnk, hk, hv]
        · simp [hnk, hk]
      · rw [loadReportGo_cons_new record rest repos duplicates hnm hs, ih, matchingRecords_cons,
          objLookup_append]
        by_cases hk : jsToLower (jsTrim (objGetD record "name")) = k
        · have hnone : objLookup repos k = none := by
            rw [← hk]
            exact Option.not_isSome_iff_eq_none.mp hs
          simp [hnk, hk, hnone, objLookup]
        · simp [hnk, hk, objLookup, Option.or_assoc]

theorem loadReportGo_nodup (records : List Rec) (repos : List (String × Rec))
    (duplicates : List (String × List Rec))
    (h : (repos.map Prod.fst).Nodup) :
    (((loadReportGo records repos duplicates).1).map Prod.fst).Nodup := by
  induction records generalizing repos duplicates with
  | nil => exact h
  | cons record rest ih =>
    by_cases hnm : jsTrim (objGetD record "name") = ""
    · rw [loadReportGo_cons_skip record rest repos duplicates hnm]
      exact ih repos duplicates h
    · by_cases hs : (objLookup repos (jsToLower (jsTrim (objGetD record "name")))).isSome
      · rw [loadReportGo_cons_dup record rest repos duplicates hnm hs]
        exact ih repos _ h
      · rw [loadReportGo_cons_new record rest repos duplicates hnm hs]
        apply ih
        have hmem : jsToLower (jsTrim (objGetD record "name")) ∉ repos.map Prod.fst := by
          intro hmem
          exact hs ((objLookup_isSome_iff_mem repos _).mpr hmem)
        simp [List.nodup_append, h, hmem]

/-- Option-level helper describing how the duplicates list of a key grows. -/
def appendOpt (o : Option (List Rec)) (l : List Rec) : Option (List Rec) :=
  if l = [] then o else some (o.getD [] ++ l)

theorem appendOpt_nil (o : Option (List Rec)) : appendOpt o [] = o := rfl

theorem appendOpt_cons (o : Option (List Rec)) (r : Rec) (l : List Rec) :
    appendOpt o (r :: l) = some (o.getD [] ++ r :: l) := by
  simp [appendOpt]

theorem appendOpt_some_snoc (d : List Rec) (r : Rec) (l : List Rec) :
    appendOpt (some (d ++ [r])) l = some (d ++ r :: l) := by
  cases l <;> simp [appendOpt]

theorem loadReportGo_dups (records : List Rec) (repos : List (String × Rec))
    (duplicates : List (String × List Rec)) (k : String) :
    objLookup (loadReportGo records repos duplicates).2 k =
      appendOpt (objLookup duplicates k)
        (if (objLookup repos k).isSome then matchingRecords records k
         else (matchingRecords records k).tail) := by
  induction records generalizing repos duplicates with
  | nil =>
    cases hs : (objLookup repos k).isSome <;>
      simp [loadReportGo, matchingRecords, appendOpt, hs]
  | cons record rest ih =>
    by_cases hnm : jsTrim (objGetD record "name") = ""
    · have hnk : normKey record ≠ some k := by simp [normKey, hnm]
      rw [loadReportGo_cons_skip record rest repos duplicates hnm, ih, matchingRecords_cons]
      simp [hnk]
    · have hnk : normKey record = some (jsToLower (jsTrim (objGetD record "name"))) := by
        simp [normKey, hnm]
      by_cases hs : (objLookup repos (jsToLower (jsTrim (objGetD record "name")))).isSome
      · by_cases hk : jsToLower (jsTrim (objGetD record "name")) = k
        · subst hk
          rw [loadReportGo_cons_dup record rest repos duplicates hnm hs, ih,
            matchingRecords_cons, objLookup_dupPush]
          simp [hs, hnk, appendOpt_some_snoc, appendOpt_cons]
        · rw [loadReportGo_cons_dup record rest repos duplicates hnm hs, ih,
            matchingRecords_cons, objLookup_dupPush]
          simp [hk, hnk]
      · by_cases hk : jsToLower (jsTrim (objGetD record "name")) = k
        · subst hk
          have hnone : objLookup repos (jsToLower (jsTrim (objGetD record "name"))) = none :=
            Option.not_isSome_iff_eq_none.mp hs
          rw [loadReportGo_cons_new record rest repos duplicates hnm hs, ih,
            matchingRecords_cons, objLookup_append]
          simp [hnone, hnk, objLookup]
        · rw [loadReportGo_cons_new record rest repos duplicates hnm hs, ih,
            matchingRecords_cons, objLookup_append]
          simp [hk, hnk, objLookup]

/-- Claim C6: the loaders skip records whose trimmed name is empty, key the
rest by trimmed-lowercased name, keep the first record per key (the lookup
equals the head of the file-ordered matching records, so later duplicates
never overwrite it), report the later occurrences of a key in the
duplicates side map exactly when the key occurs at least twice, and the
primary mapping has one entry per distinct normalized key (no duplicate
keys; its size is the number of distinct normalized keys).  The warning is
a console message driven by the duplicates map; the loop itself always
returns the mapping, never an error. -/
theorem C6_loader_dedup (records : List Rec) :
    (∀ k, objLookup (loadReport records).1 k = (matchingRecords records k).head?) ∧
    (∀ k, objLookup (loadReport records).2 k =
      if (matchingRecords records k).length ≤ 1 then none
      else some (matchingRecords records k).tail) ∧
    (((loadReport records).1.map Prod.fst).Nodup) ∧
    ((loadReport records).1.map Prod.fst).length =
      ((records.filterMap normKey).dedup).length := by
  have hlook : ∀ k, objLookup (loadReport records).1 k = (matchingRecords records k).head? := by
    intro k
    rw [loadReport, loadReportGo_lookup]
    simp [objLookup]
  have hnodup : ((loadReport records).1.map Prod.fst).Nodup :=
    loadReportGo_nodup records [] [] (by simp)
  refine ⟨hlook, ?_, hnodup, ?_⟩
  · intro k
    rw [loadReport, loadReportGo_dups]
    rw [show objLookup ([] : List (String × Rec)) k = none from rfl]
    rw [show objLookup ([] : List (String × List Rec)) k = none from rfl]
    simp only [Option.isSome_none, Bool.false_eq_true, if_false]
    cases hm : matchingRecords records k with
    | nil => simp [appendOpt]
    | cons a t =>
      cases t with
      | nil => simp [appendOpt]
      | cons b t2 => simp [appendOpt]
  · have hmem : ∀ k, k ∈ (loadReport records).1.map Prod.fst ↔
        k ∈ (records.filterMap normKey).dedup := by
      intro k
      rw [List.mem_dedup, ← objLookup_isSome_iff_mem, hlook, List.mem_filterMap]
      cases hm : matchingRecords records k with
      | nil =>
        simp only [List.head?_nil, Option.isSome_none, Bool.false_eq_true, false_iff]
        rintro ⟨r, hr, hnk⟩
        have hrm : r ∈ matchingRecords records k := by
          rw [matchingRecords, List.mem_filter]
          exact ⟨hr, by simp [hnk]⟩
        rw [hm] at hrm
        cases hrm
      | cons a t =>
        simp only [List.head?_cons, Option.isSome_some, true_iff]
        have ham : a ∈ matchingRecords records k := by
          rw [hm]
          simp
        rw [matchingRecords, List.mem_filter] at ham
        exact ⟨a, ham.1, by simpa using ham.2⟩
    have hperm : ((loadReport records).1.map Prod.fst).Perm
        ((records.filterMap normKey).dedup) :=
      (List.perm_ext_iff_of_nodup hnodup (List.nodup_dedup _)).mpr hmem
    exact hperm.length_eq

end Loader

section CompareEngine

/-- Code-unit lexicographic comparison, as used by the default string
comparator of the sort in Object.keys(github).sort(). -/
def charListLe : List Char → List Char → Bool
  | [], _ => true
  | _ :: _, [] => false
  | a :: as, b :: bs => if a = b then charListLe as bs else decide (a < b)

/-- Lexicographic order on strings (the JS default sort order). -/
def strLe (a b : String) : Bool := charListLe a.data b.data

theorem charListLe_total (as bs : List Char) :
    charListLe as bs = true ∨ charListLe bs as = true := by
  induction as generalizing bs with
  | nil => exact Or.inl rfl
  | cons a at' ih =>
    cases bs with
    | nil => exact Or.inr rfl
    | cons b bt =>
      by_cases hab : a = b
      · subst hab
        rcases ih bt with h | h
        · exact Or.inl (by simpa [charListLe] using h)
        · exact Or.inr (by simpa [charListLe] using h)
      · rcases lt_or_gt_of_ne hab with h | h
        · exact Or.inl (by simp [charListLe, hab, h])
        · exact Or.inr (by simp [charListLe, Ne.symm hab, h])

theorem charListLe_antisymm (as bs : List Char) (h1 : charListLe as bs = true)
    (h2 : charListLe bs as = true) : as = bs := by
  induction as generalizing bs with
  | nil =>
    cases bs with
    | nil => rfl
    | cons b bt => simp [charListLe] at h2
  | cons a at' ih =>
    cases bs with
    | nil => simp [charListLe] at h1
    | cons b bt =>
      by_cases hab : a = b
      · subst hab
        simp only [charListLe, if_pos rfl] at h1 h2
        rw [ih bt h1 h2]
      · simp only [charListLe, if_neg hab, decide_eq_true_eq] at h1
        simp only [charListLe, if_neg (Ne.symm hab), decide_eq_true_eq] at h2
        exact absurd h2 (lt_asymm h1)

theorem charListLe_trans (as bs cs : List Char) (h1 : charListLe as bs = true)
    (h2 : charListLe bs cs = true) : charListLe as cs = true := by
  induction as generalizing bs cs with
  | nil => rfl
  | cons a at' ih =>
    cases bs with
    | nil => simp [charListLe] at h1
    | cons b bt =>
      cases cs with
      | nil => simp [charListLe] at h2
      | cons c ct =>
        by_cases hab : a = b <;> by_cases hbc : b = c
        · subst hab
          subst hbc
          simp only [charListLe, if_pos rfl] at h1 h2 ⊢
          exact ih bt ct h1 h2
        · subst hab
          simp only [charListLe, if_pos rfl] at h1
          simpa [charListLe, hbc] using h2
        · subst hbc
          simpa [charListLe, hab] using h1
        · simp only [charListLe, if_neg hab, decide_eq_true_eq] at h1
          simp only [charListLe, if_neg hbc, decide_eq_true_eq] at h2
          have hac : a < c := lt_trans h1 h2
          simp [charListLe, ne_of_lt hac, hac]

theorem strLe_total (a b : String) : strLe a b = true ∨ strLe b a = true :=
  charListLe_total a.data b.data

theorem strLe_antisymm (a b : String) (h1 : strLe a b = true) (h2 : strLe b a = true) :
    a = b := by
  have hd := charListLe_antisymm a.data b.data h1 h2
  cases a
  cases b
  exact congrArg String.mk hd

theorem strLe_trans (a b c : String) (h1 : strLe a b = true) (h2 : strLe b c = true) :
    strLe a c = true :=
  charListLe_trans a.data b.data c.data h1 h2

/-- Insertion into a sorted list of keys. -/
def insertSorted (a : String) : List String → List String
  | [] => [a]
  | b :: bs => if strLe a b then a :: b :: bs else b :: insertSorted a bs

/-- The result of Object.keys(...).sort(): the keys in ascending
lexicographic order.  Any correct sort yields this list, so the model does
not commit to the engine's sort algorithm. -/
def sortStrings : List String → List String
  | [] => []
  | a :: as => insertSorted a (sortStrings as)

/-- Object.keys(m).sort() for a keyed collection. -/
def sortKeys (m : List (String × Rec)) : List String := sortStrings (m.map Prod.fst)

theorem insertSorted_perm (a : String) (l : List String) :
    (insertSorted a l).Perm (a :: l) := by
  induction l with
  | nil => exact List.Perm.refl _
  | cons b bs ih =>
    by_cases h : strLe a b
    · simp [insertSorted, h]
    · simp only [insertSorted, if_neg h]
      exact (List.Perm.cons b ih).trans (List.Perm.swap a b bs)

theorem sortStrings_perm (l : List String) : (sortStrings l).Perm l := by
  induction l with
  | nil => exact List.Perm.refl _
  | cons a as ih =>
    exact (insertSorted_perm a (sortStrings as)).trans (List.Perm.cons a ih)

theorem mem_insertSorted (a x : String) (l : List String) :
    x ∈ insertSorted a l ↔ x = a ∨ x ∈ l := by
  rw [(insertSorted_perm a l).mem_iff, List.mem_cons]

theorem insertSorted_sorted (a : String) (l : List String)
    (h : List.Pairwise (fun x y => strLe x y = true) l) :
    List.Pairwise (fun x y => strLe x y = true) (insertSorted a l) := by
  induction l with
  | nil => simp [insertSorted]
  | cons b bs ih =>
    by_cases hab : strLe a b
    · simp only [insertSorted, if_pos hab]
      refine List.Pairwise.cons ?_ h
      intro y hy
      rcases List.mem_cons.mp hy with rfl | hy2
      · exact hab
      · exact strLe_trans a b y hab ((List.pairwise_cons.mp h).1 y hy2)
    · simp only [insertSorted, if_neg hab]
      have hba : strLe b a = true := by
        rcases strLe_total a b with h1 | h1
        · exact absurd h1 hab
        · exact h1
      refine List.Pairwise.cons ?_ (ih (List.pairwise_cons.mp h).2)
      intro y hy
      rcases (mem_insertSorted a y bs).mp hy with rfl | hy2
      · exact hba
      · exact (List.pairwise_cons.mp h).1 y hy2

theorem sortStrings_sorted (l : List String) :
    List.Pairwise (fun x y => strLe x y = true) (sortStrings l) := by
  induction l with
  | nil => exact List.Pairwise.nil
  | cons a as ih => exact insertSorted_sorted a (sortStrings as) ih

theorem sortStrings_eq_of_perm (l1 l2 : List String) (h : l1.Perm l2) :
    sortStrings l1 = sortStrings l2 := by
  haveI : IsAntisymm String (fun x y => strLe x y = true) := ⟨strLe_antisymm⟩
  exact List.eq_of_perm_of_sorted
    (((sortStrings_perm l1).trans h).trans (sortStrings_perm l2).symm)
    (sortStrings_sorted l1) (sortStrings_sorted l2)

theorem objLookup_perm {α : Type} {l1 l2 : List (String × α)} (h : l1.Perm l2)
    (hn : (l1.map Prod.fst).Nodup) (k : String) : objLookup l1 k = objLookup l2 k := by
  induction h with
  | nil => rfl
  | cons x h2 ih =>
    obtain ⟨a, v⟩ := x
    by_cases ha : a = k
    · simp [objLookup, ha]
    · simp only [objLookup, if_neg ha]
      exact ih (by simpa using (List.nodup_cons.mp (by simpa using hn)).2)
  | swap x y l =>
    obtain ⟨a, va⟩ := x
    obtain ⟨b, vb⟩ := y
    have hab : b ≠ a := by
      have hn2 := hn
      simp only [List.map_cons, List.nodup_cons, List.mem_cons] at hn2
      exact fun hc => hn2.1 (Or.inl hc)
    by_cases hb : b = k
    · subst hb
      simp [objLookup, hab, Ne.symm hab]
    · by_cases ha : a = k <;> simp [objLookup, ha, hb]
  | trans h1 h2 ih1 ih2 =>
    rw [ih1 hn, ih2 ((h1.map Prod.fst).nodup_iff.mp hn)]

/-- The counters object of compare. -/
structure CompareCounters where
  missing : Nat
  archived : Nat
  not_archived : Nat
  total_github : Nat
deriving DecidableEq, Repr

/-- One output row of compare. -/
structure CompareRow where
  github_name : String
  github_name_with_owner : String
  github_archived : String
  github_visibility : String
  gitlab_path_with_namespace : String
  gitlab_archived : String
  status : String
deriving DecidableEq, Repr

/-- The archived test of compare: the archived field (already a string in
this model), lowercased, equals the word true or the digit 1. -/
def archivedTruthy (glProject : Rec) : Bool :=
  let archivedValue := jsToLower (objGetD glProject "archived")
  archivedValue = "true" || archivedValue = "1"

/-- The row compare pushes for a matched, not-archived pairing. -/
def mkCompareRow (ghRepo glProject : Rec) : CompareRow :=
  { github_name := objGetD ghRepo "name"
    github_name_with_owner :=
      jsOr (objGetD ghRepo "name_with_owner") (jsOr (objGetD ghRepo "nameWithOwner") "")
    github_archived := jsOr (objGetD ghRepo "archived") (jsOr (objGetD ghRepo "isArchived") "")
    github_visibility := jsOr (objGetD ghRepo "visibility") ""
    gitlab_path_with_namespace := jsOr (objGetD glProject "path_with_namespace") ""
    gitlab_archived := objGetD glProject "archived"
    status := "gitlab_not_archived" }

/-- One iteration of the key loop of compare.  The none branch of the
github lookup cannot fire for a key drawn from the github map itself; it
models the undefined property access. -/
def compareStep (github gitlab : List (String × Rec))
    (acc : List CompareRow × CompareCounters) (key : String) :
    List CompareRow × CompareCounters :=
  match objLookup github key with
  | none => acc
  | some ghRepo =>
    match objLookup gitlab key with
    | none => (acc.1, { acc.2 with missing := acc.2.missing + 1 })
    | some glProject =>
      if archivedTruthy glProject then
        (acc.1, { acc.2 with archived := acc.2.archived + 1 })
      else
        (acc.1 ++ [mkCompareRow ghRepo glProject],
          { acc.2 with not_archived := acc.2.not_archived + 1 })

/-- compare(github, gitlab): loop over the sorted keys of the github map,
then record the total key count.  Named compareReports here because the
name compare is taken by the Ord class. -/
def compareReports (github gitlab : List (String × Rec)) :
    List CompareRow × CompareCounters :=
  let keys := sortKeys github
  let res := keys.foldl (compareStep github gitlab) ([], ⟨0, 0, 0, 0⟩)
  (res.1, { res.2 with total_github := keys.length })

/-- The row compare emits for a given key, when it emits one. -/
def compareRowFor (github gitlab : List (String × Rec)) (key : String) : Option CompareRow :=
  match objLookup github key, objLookup gitlab key with
  | some ghRepo, some glProject =>
      if archivedTruthy glProject then none else some (mkCompareRow ghRepo glProject)
  | _, _ => none

/-- A key counted as missing: present on the left, absent on the right. -/
def missingPred (github gitlab : List (String × Rec)) (key : String) : Bool :=
  (objLookup github key).isSome && (objLookup gitlab key).isNone

/-- A key counted as resolved: matched and the counterpart is archived. -/
def resolvedPred (github gitlab : List (String × Rec)) (key : String) : Bool :=
  match objLookup github key, objLookup gitlab key with
  | some _, some glProject => archivedTruthy glProject
  | _, _ => false

/-- A key counted as unresolved: matched and the counterpart not archived. -/
def unresolvedPred (github gitlab : List (String × Rec)) (key : String) : Bool :=
  match objLookup github key, objLookup gitlab key with
  | some _, some glProject => ! archivedTruthy glProject
  | _, _ => false

theorem compare_foldl (github gitlab : List (String × Rec)) (keys : List String)
    (acc : List CompareRow × CompareCounters) :
    keys.foldl (compareStep github gitlab) acc =
      (acc.1 ++ keys.filterMap (compareRowFor github gitlab),
       { missing := acc.2.missing + keys.countP (missingPred github gitlab),
         archived := acc.2.archived + keys.countP (resolvedPred github gitlab),
         not_archived := acc.2.not_archived + keys.countP (unresolvedPred github gitlab),
         total_github := acc.2.total_github }) := by
  induction keys generalizing acc with
  | nil => simp
  | cons key rest ih =>
    rw [List.foldl_cons, ih]
    cases hgh : objLookup github key with
    | none =>
      simp [compareStep, compareRowFor, missingPred, resolvedPred, unresolvedPred, hgh,
        List.countP_cons, List.filterMap_cons]
    | some ghRepo =>
      cases hgl : objLookup gitlab key with
      | none =>
        simp [compareStep, compareRowFor, missingPred, resolvedPred, unresolvedPred, hgh, hgl,
          List.countP_cons, List.filterMap_cons, Nat.add_comm, Nat.add_assoc, Nat.add_left_comm]
      | some glProject =>
        cases ht : archivedTruthy glProject <;>
          simp [compareStep, compareRowFor, missingPred, resolvedPred, unresolvedPred, hgh, hgl,
            ht, List.countP_cons, List.filterMap_cons, Nat.add_comm, Nat.add_assoc,
            Nat.add_left_comm]

theorem compare_spec (github gitlab : List (String × Rec)) :
    compareReports github gitlab =
      ((sortKeys github).filterMap (compareRowFor github gitlab),
       { missing := (sortKeys github).countP (missingPred github gitlab),
         archived := (sortKeys github).countP (resolvedPred github gitlab),
         not_archived := (sortKeys github).countP (unresolvedPred github gitlab),
         total_github := (sortKeys github).length }) := by
  simp only [compareReports]
  rw [compare_foldl]
  simp

theorem countP_partition_length {α : Type} (l : List α) (p q r : α → Bool)
    (h : ∀ a ∈ l, ((if p a = true then 1 else 0) + (if q a = true then 1 else 0) +
      (if r a = true then 1 else 0) : Nat) = 1) :
    l.countP p + l.countP q + l.countP r = l.length := by
  induction l with
  | nil => rfl
  | cons a t ih =>
    have ha := h a (List.mem_cons_self a t)
    have iht := ih fun x hx => h x (List.mem_cons_of_mem a hx)
    simp only [List.countP_cons, List.length_cons]
    cases hp : p a <;> cases hq : q a <;> cases hr : r a <;>
      rw [hp, hq, hr] at ha <;> simp at ha ⊢ <;> omega

theorem length_filterMap_eq_countP {α β : Type} (f : α → Option β) (l : List α) :
    (l.filterMap f).length = l.countP fun a => (f a).isSome := by
  induction l with
  | nil => rfl
  | cons a t ih =>
    rw [List.filterMap_cons, List.countP_cons]
    cases hf : f a <;> simp [hf, ih]

theorem countP_ext {α : Type} (l : List α) (p q : α → Bool) (h : ∀ a ∈ l, p a = q a) :
    l.countP p = l.countP q := by
  induction l with
  | nil => rfl
  | cons a t ih =>
    rw [List.countP_cons, List.countP_cons, h a (List.mem_cons_self a t),
      ih fun x hx => h x (List.mem_cons_of_mem a hx)]

/-- Claim C5: in the archive cross-check, every key of the left mapping
falls into exactly one of the missing / archived (resolved) / not_archived
(unresolved, emitted) branches, so those three counters sum to the
total_github counter, which equals the number of keys of the left mapping,
and the number of emitted rows equals the not_archived counter. -/
theorem C5_counter_partition (github gitlab : List (String × Rec))
    (hnodup : (github.map Prod.fst).Nodup) :
    (compareReports github gitlab).2.missing + (compareReports github gitlab).2.archived +
        (compareReports github gitlab).2.not_archived =
      (compareReports github gitlab).2.total_github ∧
    (compareReports github gitlab).2.total_github = (github.map Prod.fst).length ∧
    (compareReports github gitlab).1.length = (compareReports github gitlab).2.not_archived := by
  rw [compare_spec]
  refine ⟨?_, ?_, ?_⟩
  · apply countP_partition_length
    intro k hk
    have hks : (objLookup github k).isSome := by
      rw [objLookup_isSome_iff_mem]
      exact (sortStrings_perm (github.map Prod.fst)).mem_iff.mp hk
    obtain ⟨gh, hgh⟩ := Option.isSome_iff_exists.mp hks
    cases hgl : objLookup gitlab k with
    | none => simp [missingPred, resolvedPred, unresolvedPred, hgh, hgl]
    | some gl =>
      cases ht : archivedTruthy gl <;>
        simp [missingPred, resolvedPred, unresolvedPred, hgh, hgl, ht]
  · exact (sortStrings_perm (github.map Prod.fst)).length_eq
  · rw [length_filterMap_eq_countP]
    apply countP_ext
    intro k _
    cases hgh : objLookup github k with
    | none => simp [compareRowFor, unresolvedPred, hgh]
    | some gh =>
      cases hgl : objLookup gitlab k with
      | none => simp [compareRowFor, unresolvedPred, hgh, hgl]
      | some gl =>
        cases ht : archivedTruthy gl <;> simp [compareRowFor, unresolvedPred, hgh, hgl, ht]

/-- Witness for C5_counter_partition on a concrete two-key left map. -/
theorem C5_counter_partition_witness :
    (([("a", [("name", "A")]), ("b", [("name", "b")])].map
        (Prod.fst (α := String) (β := Rec))).Nodup) ∧
    (compareReports [("a", [("name", "A")]), ("b", [("name", "b")])]
          [("a", [("archived", "true")])]).2.missing +
      (compareReports [("a", [("name", "A")]), ("b", [("name", "b")])]
          [("a", [("archived", "true")])]).2.archived +
      (compareReports [("a", [("name", "A")]), ("b", [("name", "b")])]
          [("a", [("archived", "true")])]).2.not_archived =
      (compareReports [("a", [("name", "A")]), ("b", [("name", "b")])]
          [("a", [("archived", "true")])]).2.total_github := by
  refine ⟨by decide, ?_⟩
  exact (C5_counter_partition [("a", [("name", "A")]), ("b", [("name", "b")])]
    [("a", [("archived", "true")])] (by decide)).1

/-- Claim C7: a matched pair is counted resolved (archived counter) with no
emitted row exactly when the right record's archived value, lowercased,
equals the word true or the digit 1; otherwise the pair is counted
unresolved and exactly one row combining fields of both sides with the
fixed status gitlab_not_archived is emitted.  The final conjunct is
concrete scenario A: left Foo/bar against right foo(archived true) /
BAR(archived false) gives resolved 1, unresolved 1, missing 0 and one
emitted row for bar. -/
theorem C7_archive_policy (github gitlab : List (String × Rec)) :
    ((compareReports github gitlab).1 =
      (sortKeys github).filterMap (compareRowFor github gitlab)) ∧
    ((compareReports github gitlab).2.archived =
      (sortKeys github).countP (resolvedPred github gitlab)) ∧
    ((compareReports github gitlab).2.not_archived =
      (sortKeys github).countP (unresolvedPred github gitlab)) ∧
    (∀ k ghRepo glProject, objLookup github k = some ghRepo →
      objLookup gitlab k = some glProject →
      compareRowFor github gitlab k =
        (if jsToLower (objGetD glProject "archived") = "true" ∨
            jsToLower (objGetD glProject "archived") = "1" then none
         else some (mkCompareRow ghRepo glProject)) ∧
      (mkCompareRow ghRepo glProject).status = "gitlab_not_archived") ∧
    (compareReports
        (loadReport [[("name", "Foo")], [("name", "bar")]]).1
        (loadReport [[("name", "foo"), ("archived", "true")],
          [("name", "BAR"), ("archived", "false")]]).1 =
      ([⟨"bar", "", "", "", "", "false", "gitlab_not_archived"⟩],
        ⟨0, 1, 1, 2⟩)) := by
  refine ⟨?_, ?_, ?_, ?_, by decide⟩
  · rw [compare_spec]
  · rw [compare_spec]
  · rw [compare_spec]
  · intro k ghRepo glProject hgh hgl
    refine ⟨?_, rfl⟩
    have hiff : archivedTruthy glProject = true ↔
        (jsToLower (objGetD glProject "archived") = "true" ∨
         jsToLower (objGetD glProject "archived") = "1") := by
      simp [archivedTruthy]
    simp only [compareRowFor, hgh, hgl]
    by_cases hd : jsToLower (objGetD glProject "archived") = "true" ∨
        jsToLower (objGetD glProject "archived") = "1"
    · rw [if_pos (hiff.mpr hd), if_pos hd]
    · rw [if_neg (fun hc => hd (hiff.mp hc)), if_neg hd]

/-- Witness for C7_archive_policy: instantiates the per-pair clause for a
concrete matched pair with archived FALSE on the right. -/
theorem C7_archive_policy_witness :
    objLookup [("p", [("name", "p")])] "p" = some [("name", "p")] ∧
    objLookup [("p", [("name", "p"), ("archived", "False")])] "p" =
      some [("name", "p"), ("archived", "False")] ∧
    compareRowFor [("p", [("name", "p")])] [("p", [("name", "p"), ("archived", "False")])] "p" =
      some (mkCompareRow [("name", "p")] [("name", "p"), ("archived", "False")]) := by
  have main := (C7_archive_policy [("p", [("name", "p")])]
    [("p", [("name", "p"), ("archived", "False")])]).2.2.2.1
    "p" [("name", "p")] [("name", "p"), ("archived", "False")] (by decide) (by decide)
  refine ⟨by decide, by decide, ?_⟩
  rw [main.1]
  decide

end CompareEngine

section LastChange

/-- The counters object of compareLastChanges. -/
structure LCCounters where
  compared : Nat
  missingInGitLab : Nat
  gitlabNewer : Nat
  githubNewerOrEqual : Nat
  unknown : Nat
deriving DecidableEq, Repr

/-- One result row of compareLastChanges. -/
structure LCRow where
  name : String
  githubPushedAt : String
  gitlabUpdatedAt : String
  status : String
deriving DecidableEq, Repr

/-- getGithubTimestamp: pushed_at, else pushedAt, else empty. -/
def getGithubTimestamp (record : Rec) : String :=
  jsOr (objGetD record "pushed_at") (jsOr (objGetD record "pushedAt") "")

/-- pickGitlabTimestamp: last_repository_updated_at, else last_activity_at,
else empty. -/
def pickGitlabTimestamp (project : Rec) : String :=
  jsOr (objGetD project "last_repository_updated_at")
    (jsOr (objGetD project "last_activity_at") "")

/-- toDate: a falsy (empty) value is null; otherwise the host Date parser,
abstracted as the parameter parse, with none modelling a NaN getTime. -/
def toDate (parse : String → Option Int) (value : String) : Option Int :=
  if value = "" then none else parse value

/-- The gitlabByName index of compareLastChanges: keyed by trimmed,
lowercased name, first record wins, blank names skipped. -/
def buildGitlabByName (gitlabRecords : List Rec) : List (String × Rec) :=
  gitlabRecords.foldl
    (fun gitlabByName record =>
      let name := jsToLower (jsTrim (objGetD record "name"))
      if name = "" then gitlabByName
      else if (objLookup gitlabByName name).isSome then gitlabByName
      else gitlabByName ++ [(name, record)])
    []

/-- One iteration of the github loop of compareLastChanges, with the branch
order of the source: both dates null, github null, gitlab null, compare. -/
def lcStep (parse : String → Option Int) (gitlabByName : List (String × Rec))
    (acc : List LCRow × LCCounters) (repo : Rec) : List LCRow × LCCounters :=
  let name := jsTrim (objGetD repo "name")
  if name = "" then acc
  else
    match objLookup gitlabByName (jsToLower name) with
    | none => (acc.1, { acc.2 with missingInGitLab := acc.2.missingInGitLab + 1 })
    | some project =>
      let c := { acc.2 with compared := acc.2.compared + 1 }
      let githubTimestamp := getGithubTimestamp repo
      let githubDate := toDate parse githubTimestamp
      let gitlabTimestamp := pickGitlabTimestamp project
      let gitlabDate := toDate parse gitlabTimestamp
      match githubDate, gitlabDate with
      | none, none =>
          (acc.1 ++ [⟨name, githubTimestamp, gitlabTimestamp, "unknown_timestamps"⟩],
            { c with unknown := c.unknown + 1 })
      | none, some _ =>
          (acc.1 ++ [⟨name, githubTimestamp, gitlabTimestamp, "gitlab_has_timestamp_only"⟩],
            { c with gitlabNewer := c.gitlabNewer + 1 })
      | some _, none =>
          (acc.1 ++ [⟨name, githubTimestamp, gitlabTimestamp, "github_has_timestamp_only"⟩],
            { c with githubNewerOrEqual := c.githubNewerOrEqual + 1 })
      | some g, some l =>
          if l > g then
            (acc.1 ++ [⟨name, githubTimestamp, gitlabTimestamp, "gitlab_newer"⟩],
              { c with gitlabNewer := c.gitlabNewer + 1 })
          else
            (acc.1 ++ [⟨name, githubTimestamp, gitlabTimestamp, "github_newer_or_equal"⟩],
              { c with githubNewerOrEqual := c.githubNewerOrEqual + 1 })

/-- compareLastChanges(githubRecords, gitlabRecords), generic over the Date
parser. -/
def compareLastChanges (parse : String → Option Int)
    (githubRecords gitlabRecords : List Rec) : List LCRow × LCCounters :=
  githubRecords.foldl (lcStep parse (buildGitlabByName gitlabRecords)) ([], ⟨0, 0, 0, 0, 0⟩)

/-- The five-way classification of a compared pair. -/
def lcStatus : Option Int → Option Int → String
  | none, none => "unknown_timestamps"
  | none, some _ => "gitlab_has_timestamp_only"
  | some _, none => "github_has_timestamp_only"
  | some g, some l => if l > g then "gitlab_newer" else "github_newer_or_equal"

/-- The row compareLastChanges appends for one github record, when the
record has a name and a gitlab counterpart. -/
def lcRowFor (parse : String → Option Int) (gitlabByName : List (String × Rec))
    (repo : Rec) : Option LCRow :=
  let name := jsTrim (objGetD repo "name")
  if name = "" then none
  else
    match objLookup gitlabByName (jsToLower name) with
    | none => none
    | some project =>
      let githubTimestamp := getGithubTimestamp repo
      let gitlabTimestamp := pickGitlabTimestamp project
      some ⟨name, githubTimestamp, gitlabTimestamp,
        lcStatus (toDate parse githubTimestamp) (toDate parse gitlabTimestamp)⟩

/-- A github record counted missingInGitLab: named but with no counterpart. -/
def lcMissing (gitlabByName : List (String × Rec)) (repo : Rec) : Bool :=
  jsTrim (objGetD repo "name") ≠ "" &&
    (objLookup gitlabByName (jsToLower (jsTrim (objGetD repo "name")))).isNone

/-- Number of result rows carrying a given status. -/
def statusCount (rows : List LCRow) (s : String) : Nat :=
  rows.countP fun row => row.status = s

theorem lc_foldl (parse : String → Option Int) (m : List (String × Rec))
    (records : List Rec) (acc : List LCRow × LCCounters) :
    records.foldl (lcStep parse m) acc =
      (acc.1 ++ records.filterMap (lcRowFor parse m),
       ⟨acc.2.compared + (records.filterMap (lcRowFor parse m)).length,
        acc.2.missingInGitLab + records.countP (lcMissing m),
        acc.2.gitlabNewer +
          (statusCount (records.filterMap (lcRowFor parse m)) "gitlab_has_timestamp_only" +
            statusCount (records.filterMap (lcRowFor parse m)) "gitlab_newer"),
        acc.2.githubNewerOrEqual +
          (statusCount (records.filterMap (lcRowFor parse m)) "github_has_timestamp_only" +
            statusCount (records.filterMap (lcRowFor parse m)) "github_newer_or_equal"),
        acc.2.unknown +
          statusCount (records.filterMap (lcRowFor parse m)) "unknown_timestamps"⟩) := by
  induction records generalizing acc with
  | nil => simp [statusCount]
  | cons repo rest ih =>
    rw [List.foldl_cons, ih]
    by_cases hname : jsTrim (objGetD repo "name") = ""
    · simp [lcStep, lcRowFor, lcMissing, hname]
    · cases hlook : objLookup m (jsToLower (jsTrim (objGetD repo "name"))) with
      | none =>
        simp [lcStep, lcRowFor, lcMissing, hname, hlook, List.countP_cons, statusCount,
          Nat.add_comm, Nat.add_assoc, Nat.add_left_comm]
      | some project =>
        cases hgd : toDate parse (getGithubTimestamp repo) with
        | none =>
          cases hld : toDate parse (pickGitlabTimestamp project) with
          | none =>
            simp [lcStep, lcRowFor, lcMissing, lcStatus, statusCount, hname, hlook, hgd, hld,
              List.countP_cons, List.filterMap_cons, Nat.add_comm, Nat.add_assoc,
              Nat.add_left_comm]
          | some l =>
            simp [lcStep, lcRowFor, lcMissing, lcStatus, statusCount, hname, hlook, hgd, hld,
              List.countP_cons, List.filterMap_cons, Nat.add_comm, Nat.add_assoc,
              Nat.add_left_comm]
        | some g =>
          cases hld : toDate parse (pickGitlabTimestamp project) with
          | none =>
            simp [lcStep, lcRowFor, lcMissing, lcStatus, statusCount, hname, hlook, hgd, hld,
              List.countP_cons, List.filterMap_cons, Nat.add_comm, Nat.add_assoc,
              Nat.add_left_comm]
          | some l =>
            by_cases hgt : l > g
            · simp [lcStep, lcRowFor, lcMissing, lcStatus, statusCount, hname, hlook, hgd, hld,
                hgt, List.countP_cons, List.filterMap_cons, Nat.add_comm, Nat.add_assoc,
                Nat.add_left_comm]
            · simp [lcStep, lcRowFor, lcMissing, lcStatus, statusCount, hname, hlook, hgd, hld,
                hgt, List.countP_cons, List.filterMap_cons, Nat.add_comm, Nat.add_assoc,
                Nat.add_left_comm]

theorem lcStatus_mem (d1 d2 : Option Int) :
    lcStatus d1 d2 ∈ ["unknown_timestamps", "gitlab_has_timestamp_only",
      "github_has_timestamp_only", "gitlab_newer", "github_newer_or_equal"] := by
  cases d1 with
  | none => cases d2 <;> simp [lcStatus]
  | some g =>
    cases d2 with
    | none => simp [lcStatus]
    | some l => by_cases h : l > g <;> simp [lcStatus, h]

theorem lcRowFor_status (parse : String → Option Int) (m : List (String × Rec))
    (repo : Rec) (row : LCRow) (h : lcRowFor parse m repo = some row) :
    row.status ∈ ["unknown_timestamps", "gitlab_has_timestamp_only",
      "github_has_timestamp_only", "gitlab_newer", "github_newer_or_equal"] := by
  by_cases hname : jsTrim (objGetD repo "name") = ""
  · simp [lcRowFor, hname] at h
  · cases hlook : objLookup m (jsToLower (jsTrim (objGetD repo "name"))) with
    | none => simp [lcRowFor, hname, hlook] at h
    | some project =>
      simp only [lcRowFor, if_neg hname, hlook, Option.some_inj] at h
      rw [← h]
      exact lcStatus_mem _ _

/-- Claim C3, amended: in the staleness comparison every joined pair is
classified into exactly one of the five mutually exclusive statuses, with
parse-or-null semantics (an absent or unparsable timestamp becomes none,
never an error), and the compared counter counts every pair.  But the five
outcomes share three counters rather than having five dedicated ones:
unknown is dedicated to both-unknown, gitlabNewer counts
gitlab_has_timestamp_only plus gitlab_newer, and githubNewerOrEqual counts
github_has_timestamp_only plus github_newer_or_equal. -/
theorem C3_five_way_amended (parse : String → Option Int)
    (githubRecords gitlabRecords : List Rec) :
    (∀ row ∈ (compareLastChanges parse githubRecords gitlabRecords).1,
      row.status ∈ ["unknown_timestamps", "gitlab_has_timestamp_only",
        "github_has_timestamp_only", "gitlab_newer", "github_newer_or_equal"]) ∧
    ((compareLastChanges parse githubRecords gitlabRecords).2.compared =
      (compareLastChanges parse githubRecords gitlabRecords).1.length) ∧
    ((compareLastChanges parse githubRecords gitlabRecords).2.unknown =
      statusCount (compareLastChanges parse githubRecords gitlabRecords).1
        "unknown_timestamps") ∧
    ((compareLastChanges parse githubRecords gitlabRecords).2.gitlabNewer =
      statusCount (compareLastChanges parse githubRecords gitlabRecords).1
          "gitlab_has_timestamp_only" +
        statusCount (compareLastChanges parse githubRecords gitlabRecords).1
          "gitlab_newer") ∧
    ((compareLastChanges parse githubRecords gitlabRecords).2.githubNewerOrEqual =
      statusCount (compareLastChanges parse githubRecords gitlabRecords).1
          "github_has_timestamp_only" +
        statusCount (compareLastChanges parse githubRecords gitlabRecords).1
          "github_newer_or_equal") ∧
    (toDate parse "" = none) ∧
    (∀ v, parse v = none → toDate parse v = none) := by
  simp only [compareLastChanges]
  rw [lc_foldl]
  refine ⟨?_, by simp, by simp, by simp, by simp, by simp [toDate],
    fun v hv => by simp [toDate, hv]⟩
  intro row hrow
  simp only [List.nil_append] at hrow
  obtain ⟨repo, _, heq⟩ := List.mem_filterMap.mp hrow
  exact lcRowFor_status parse _ repo row heq

/-- Witness for C3_five_way_amended at a concrete comparison with one pair
in each of three statuses. -/
theorem C3_five_way_amended_witness :
    ((compareLastChanges (fun s => if s = "T1" then some 1 else none)
        [[("name", "p"), ("pushed_at", "T1")]]
        [[("name", "p"), ("last_activity_at", "T1")]]).2.compared =
      (compareLastChanges (fun s => if s = "T1" then some 1 else none)
        [[("name", "p"), ("pushed_at", "T1")]]
        [[("name", "p"), ("last_activity_at", "T1")]]).1.length) ∧
    toDate (fun s => if s = "T1" then some 1 else none) "" = none := by
  have main := C3_five_way_amended (fun s => if s = "T1" then some 1 else none)
    [[("name", "p"), ("pushed_at", "T1")]]
    [[("name", "p"), ("last_activity_at", "T1")]]
  exact ⟨main.2.1, main.2.2.2.2.2.1⟩

/-- Claim C3, counterexample: with one pair classified
gitlab_has_timestamp_only and one classified gitlab_newer, there is exactly
one gitlab_newer outcome but no counter of the result equals 1: the five
outcomes do not each have their own dedicated counter (gitlabNewer tallies
both of those statuses). -/
theorem C3_dedicated_counter_counterexample :
    ((compareLastChanges (fun s => if s = "T0" then some 0 else
          if s = "T1" then some 1 else none)
        [[("name", "p"), ("pushed_at", "T0")], [("name", "q")]]
        [[("name", "p"), ("last_repository_updated_at", "T1")],
         [("name", "q"), ("last_repository_updated_at", "T1")]]).1.countP
      (fun row => row.status = "gitlab_newer") = 1) ∧
    ((compareLastChanges (fun s => if s = "T0" then some 0 else
          if s = "T1" then some 1 else none)
        [[("name", "p"), ("pushed_at", "T0")], [("name", "q")]]
        [[("name", "p"), ("last_repository_updated_at", "T1")],
         [("name", "q"), ("last_repository_updated_at", "T1")]]).2 =
      ⟨2, 0, 2, 0, 0⟩) := by decide

/-- Claim C4, counterexample: the staleness variant emits rows in left
input order, not sorted by key — left records named b then a yield output
rows b then a (not ascending), and permuting the left rows to a then b
yields a different ordered output. -/
theorem C4_order_counterexample :
    ((compareLastChanges (fun _ => none) [[("name", "b")], [("name", "a")]]
        [[("name", "a")], [("name", "b")]]).1.map (fun row => row.name) = ["b", "a"]) ∧
    ¬ List.Pairwise (fun x y => strLe x y = true) ["b", "a"] ∧
    ((compareLastChanges (fun _ => none) [[("name", "a")], [("name", "b")]]
        [[("name", "a")], [("name", "b")]]).1.map (fun row => row.name) = ["a", "b"]) := by
  refine ⟨by decide, ?_, by decide⟩
  intro hc
  have hba := (List.pairwise_cons.mp hc).1 "a" (by simp)
  rw [show strLe "b" "a" = false from by decide] at hba
  cases hba

/-- Claim C4, amended: the archive cross-check variant does emit its rows
in ascending lexicographic order of the normalized key and is invariant
under permutations of either keyed collection; the staleness variant
(compareLastChanges) is excluded, since it iterates the left records in
input order. -/
theorem C4_order_amended (github github2 gitlab gitlab2 : List (String × Rec))
    (hgp : github.Perm github2) (hgn : (github.map Prod.fst).Nodup)
    (hlp : gitlab.Perm gitlab2) (hln : (gitlab.map Prod.fst).Nodup) :
    compareReports github gitlab = compareReports github2 gitlab2 ∧
    (compareReports github gitlab).1 =
      (sortKeys github).filterMap (compareRowFor github gitlab) ∧
    List.Pairwise (fun x y => strLe x y = true) (sortKeys github) := by
  have hgl : ∀ k, objLookup github k = objLookup github2 k := objLookup_perm hgp hgn
  have hll : ∀ k, objLookup gitlab k = objLookup gitlab2 k := objLookup_perm hlp hln
  have hkeys : sortKeys github = sortKeys github2 :=
    sortStrings_eq_of_perm _ _ (hgp.map Prod.fst)
  have hrow : compareRowFor github gitlab = compareRowFor github2 gitlab2 := by
    funext k
    simp only [compareRowFor]
    rw [hgl k, hll k]
  have hmiss : missingPred github gitlab = missingPred github2 gitlab2 := by
    funext k
    simp only [missingPred]
    rw [hgl k, hll k]
  have hres : resolvedPred github gitlab = resolvedPred github2 gitlab2 := by
    funext k
    simp only [resolvedPred]
    rw [hgl k, hll k]
  have hunres : unresolvedPred github gitlab = unresolvedPred github2 gitlab2 := by
    funext k
    simp only [unresolvedPred]
    rw [hgl k, hll k]
  refine ⟨?_, ?_, sortStrings_sorted _⟩
  · rw [compare_spec github gitlab, compare_spec github2 gitlab2, hkeys, hrow, hmiss,
      hres, hunres]
  · rw [compare_spec]

/-- Witness for C4_order_amended on two-element keyed collections permuted
on both sides. -/
theorem C4_order_amended_witness :
    ([("b", [("name", "B")]), ("a", [("name", "a")])].Perm
      [("a", [("name", "a")]), ("b", [("name", "B")])]) ∧
    compareReports [("b", [("name", "B")]), ("a", [("name", "a")])]
        [("a", [("archived", "true")])] =
      compareReports [("a", [("name", "a")]), ("b", [("name", "B")])]
        [("a", [("archived", "true")])] := by
  have hperm : ([("b", [("name", "B")]), ("a", [("name", "a")])] :
      List (String × Rec)).Perm [("a", [("name", "a")]), ("b", [("name", "B")])] :=
    List.Perm.swap _ _ _
  have main := C4_order_amended
    [("b", [("name", "B")]), ("a", [("name", "a")])]
    [("a", [("name", "a")]), ("b", [("name", "B")])]
    [("a", [("archived", "true")])] [("a", [("archived", "true")])]
    hperm (by decide) (List.Perm.refl _) (by decide)
  exact ⟨hperm, main.1⟩

end LastChange

section Enrichment

/-- A GitLab project during enrichment: the id used by the detail fetch and
the two timestamp fields, the empty string standing for the JS-falsy
absent value. -/
structure Project where
  id : String
  last_repository_updated_at : String
  last_activity_at : String
deriving DecidableEq, Repr

/-- The detail payload of fetchProjectDetail. -/
structure ProjectDetail where
  last_repository_updated_at : String
  last_activity_at : String
deriving DecidableEq, Repr

/-- The per-item body of the worker loop of
fetchProjectDetailsConcurrently: skip with no fetch when the field is
already truthy; otherwise fetch — on success write the detail fields
(last_activity_at only if absent), on failure log a warning and leave the
item unchanged.  Returns the updated item, whether a fetch call happened,
and the warning if one was printed. -/
def processProject (fetch : String → Except String ProjectDetail) (project : Project) :
    Project × Bool × Option String :=
  if project.last_repository_updated_at ≠ "" then (project, false, none)
  else
    match fetch project.id with
    | .ok detail =>
        ({ project with
            last_repository_updated_at := detail.last_repository_updated_at,
            last_activity_at :=
              if project.last_activity_at = "" then detail.last_activity_at
              else project.last_activity_at }, true, none)
    | .error msg =>
        (project, true,
          some ("Warning: failed to load extra details for project " ++ project.id
            ++ ": " ++ msg))

/-- The net effect of fetchProjectDetailsConcurrently on the projects
array.  The shared cursor is advanced synchronously (no await between read
and increment), so each index is claimed by exactly one worker and each
item slot is written by at most one worker; the final array state is the
sequential per-item effect, independent of the interleaving of the
workers.  Returns the items, the per-item fetch flags, and the warning
log. -/
def fetchProjectDetailsConcurrently (fetch : String → Except String ProjectDetail)
    (projects : List Project) : List Project × List Bool × List String :=
  let step := projects.map (processProject fetch)
  (step.map (fun r => r.1), step.map (fun r => r.2.1), step.filterMap (fun r => r.2.2))

/-- The concurrency clamp of the pool: parseInt result (none models NaN),
values below 1 fall back to the default 8, hard cap 16. -/
def clampConcurrency (parsed : Option Int) : Nat :=
  match parsed with
  | none => 8
  | some p => if p < 1 then 8 else min p.toNat 16

/-- Worker count: the clamped concurrency, never exceeding the item count. -/
def workerCount (parsed : Option Int) (itemCount : Nat) : Nat :=
  min (clampConcurrency parsed) itemCount

theorem processProject_state_idem (fetch : String → Except String ProjectDetail)
    (p : Project) :
    (processProject fetch (processProject fetch p).1).1 = (processProject fetch p).1 := by
  by_cases h : p.last_repository_updated_at = ""
  · cases hf : fetch p.id with
    | error msg => simp [processProject, h, hf]
    | ok detail =>
      by_cases hd : detail.last_repository_updated_at = ""
      · by_cases hla : p.last_activity_at = "" <;>
          simp [processProject, h, hf, hd, hla, ite_self]
      · simp [processProject, h, hf, hd]
  · simp [processProject, h]

theorem processProject_flag (fetch : String → Except String ProjectDetail) (q : Project) :
    (processProject fetch q).2.1 = decide (q.last_repository_updated_at = "") := by
  by_cases h : q.last_repository_updated_at = ""
  · cases hf : fetch q.id <;> simp [processProject, h, hf]
  · simp [processProject, h]

/-- Claim C8: running the enrichment a second time with the same fetch
behaviour leaves the collection unchanged, and on the second run a fetch
call happens exactly on the items whose field is still absent — every item
filled by the first run is skipped with no fetch call. -/
theorem C8_enrichment_idempotent (fetch : String → Except String ProjectDetail)
    (projects : List Project) :
    (fetchProjectDetailsConcurrently fetch
        (fetchProjectDetailsConcurrently fetch projects).1).1 =
      (fetchProjectDetailsConcurrently fetch projects).1 ∧
    (fetchProjectDetailsConcurrently fetch
        (fetchProjectDetailsConcurrently fetch projects).1).2.1 =
      (fetchProjectDetailsConcurrently fetch projects).1.map
        (fun p => decide (p.last_repository_updated_at = "")) := by
  constructor
  · simp only [fetchProjectDetailsConcurrently, List.map_map]
    apply List.map_congr_left
    intro p _
    simp only [Function.comp]
    exact processProject_state_idem fetch p
  · simp only [fetchProjectDetailsConcurrently, List.map_map]
    apply List.map_congr_left
    intro p _
    simp only [Function.comp]
    exact processProject_flag fetch (processProject fetch p).1

theorem processProject_warning (fetch : String → Except String ProjectDetail) (p : Project) :
    (processProject fetch p).2.2 =
      (if p.last_repository_updated_at ≠ "" then none
       else
        match fetch p.id with
        | .ok _ => none
        | .error msg =>
            some ("Warning: failed to load extra details for project " ++ p.id
              ++ ": " ++ msg)) := by
  by_cases h : p.last_repository_updated_at = ""
  · cases hf : fetch p.id <;> simp [processProject, h, hf]
  · simp [processProject, h]

/-- Claim C9: a fetch failure is non-fatal and local — the warning log is
exactly one message per item that was fetched and failed, every other item
is processed normally, and the pool returns.  Concretely, with a worker
count of 3 over 10 unfilled items whose fetch throws only for item 4:
items 1-3 and 5-10 end up with both fields enriched, item 4 keeps both
fields absent, and exactly one warning naming project 4 is logged. -/
theorem C9_single_failure (fetch : String → Except String ProjectDetail)
    (projects : List Project) :
    ((fetchProjectDetailsConcurrently fetch projects).2.2 =
      projects.filterMap fun p =>
        if p.last_repository_updated_at ≠ "" then none
        else
          match fetch p.id with
          | .ok _ => none
          | .error msg =>
              some ("Warning: failed to load extra details for project " ++ p.id
                ++ ": " ++ msg)) ∧
    (fetchProjectDetailsConcurrently
        (fun id => if id = "4" then .error "boom"
          else .ok ⟨"t" ++ id, "a" ++ id⟩)
        ((["1", "2", "3", "4", "5", "6", "7", "8", "9", "10"].map
          fun id => ⟨id, "", ""⟩)) =
      ([⟨"1", "t1", "a1"⟩, ⟨"2", "t2", "a2"⟩, ⟨"3", "t3", "a3"⟩, ⟨"4", "", ""⟩,
        ⟨"5", "t5", "a5"⟩, ⟨"6", "t6", "a6"⟩, ⟨"7", "t7", "a7"⟩, ⟨"8", "t8", "a8"⟩,
        ⟨"9", "t9", "a9"⟩, ⟨"10", "t10", "a10"⟩],
       [true, true, true, true, true, true, true, true, true, true],
       ["Warning: failed to load extra details for project 4: boom"])) ∧
    workerCount (some 3) 10 = 3 := by
  refine ⟨?_, by decide, by decide⟩
  induction projects with
  | nil => rfl
  | cons p rest ih =>
    simp only [fetchProjectDetailsConcurrently, List.map_cons, List.filterMap_cons] at ih ⊢
    rw [processProject_warning]
    cases hw : (if p.last_repository_updated_at ≠ "" then none
       else
        match fetch p.id with
        | .ok _ => none
        | .error msg =>
            some ("Warning: failed to load extra details for project " ++ p.id
              ++ ": " ++ msg) : Option String) with
    | none => simpa using ih
    | some w => simpa using ih
